import Mathlib

/-!
Verification of the babelizer transform logic (src/index.tsx) against its
natural-language specification.

The program is a Bun/TypeScript tool.  We shallowly embed its pure transform
core over an inductive JSON value type:

* JavaScript `undefined` is modelled as `none : Option Json`; JSON `null` is
  the constructor `Json.null`.  JSON numbers are modelled as `Int` (all values
  the tool manipulates in the verified claims are integers; IEEE-754
  fractional behaviour is out of scope).
* JavaScript property access `v[key]` on JSON data is `jsonGet`: object field
  lookup, canonical-index element access on arrays, `length` on arrays and
  strings, character access on strings, and `undefined` on every other
  primitive.  Inherited prototype methods are not data and are not modelled.
* File-system reads appear as explicit inputs (`List (Except String Json)`,
  one per discovered record file, in discovery order; a `.error` marks a file
  whose JSON parse fails) and writes as fields of the returned result value.
-/

inductive Json where
  | null : Json
  | bool (b : Bool) : Json
  | num (n : Int) : Json
  | str (s : String) : Json
  | arr (elems : List Json) : Json
  | obj (fields : List (String × Json)) : Json
  deriving Repr

/-- Lookup of a field in a JavaScript object (modelled as an association list
in insertion order; objects produced by `JSON.parse` have distinct keys, which
every constructor below preserves). -/
def jsLookup {α : Type} (fields : List (String × α)) (key : String) : Option α :=
  (fields.find? (fun p => p.1 == key)).map (fun p => p.2)

/-- Decimal value of a list of digit characters. -/
def csToNat (cs : List Char) : Nat :=
  cs.foldl (fun acc c => acc * 10 + (c.toNat - 48)) 0

/-- JavaScript array-index property names: a key addresses element `i` exactly
when it is the canonical decimal representation of `i` (nonempty, all digits,
no leading zero unless the key is "0"). -/
def canonIndex (key : String) : Option Nat :=
  let cs := key.data
  if cs ≠ [] ∧ cs.all (fun c => c.isDigit) ∧ (cs.head? ≠ some '0' ∨ cs.length = 1) then
    some (csToNat cs)
  else
    none

/-- JavaScript property read `j[key]` on a JSON value: field lookup on
objects; index/`length` on arrays; index/`length` on strings (a character
read yields a one-character string); `undefined` (`none`) on `null`, booleans
and numbers.  Prototype methods are not modelled. -/
def jsonGet : Json → String → Option Json
  | Json.obj fields, key => jsLookup fields key
  | Json.arr elems, key =>
      if key == "length" then some (Json.num elems.length)
      else
        match canonIndex key with
        | some i => elems[i]?
        | none => none
  | Json.str s, key =>
      if key == "length" then some (Json.num s.length)
      else
        match canonIndex key with
        | some i => (s.data[i]?).map (fun c => Json.str (String.mk [c]))
        | none => none
  | _, _ => none

/-- Splitting a character list at every occurrence of a separator character,
keeping empty pieces — the semantics of JavaScript
`String.prototype.split` with a single-character separator
(`"".split(".") = [""]`, `"a..b.".split(".") = ["a","","b",""]`). -/
def splitOnChar (c : Char) : List Char → List (List Char)
  | [] => [[]]
  | ch :: rest =>
      if ch = c then [] :: splitOnChar c rest
      else
        match splitOnChar c rest with
        | [] => [[ch]]
        | t :: ts => (ch :: t) :: ts

/-- JavaScript `s.split(c)` for a one-character separator. -/
def jsSplit (s : String) (c : Char) : List String :=
  (splitOnChar c s.data).map String.mk

/-- Embedding of `getNestedValue` (src/index.tsx):
`path.split(".").reduce((current, key) => current?.[key], obj)`.
The accumulator is `Option Json` (`none` = `undefined`); optional chaining on
`undefined` or `null` yields `undefined`, which `Option.bind` together with
`jsonGet Json.null _ = none` reproduces. -/
def getNestedValue (obj : Option Json) (path : String) : Option Json :=
  (jsSplit path '.').foldl (fun current key => current.bind (fun j => jsonGet j key)) obj

/-- Specification-side descent: walk the already-split path key by key,
short-circuiting to absent (`none`) as soon as the current value is absent.
Written from the spec's words ("resolve the nested value by splitting on `.`
and descending key by key, short-circuiting to absent if any intermediate is
missing"), to be compared with `getNestedValue`. -/
def descendPath : Option Json → List String → Option Json
  | current, [] => current
  | none, _ :: _ => none
  | some j, key :: rest => descendPath (jsonGet j key) rest

mutual

/-- JavaScript `String(v)` on a JSON value: `"null"`, `"true"`/`"false"`,
decimal numerals, the string itself, `Array.prototype.toString` (elements
joined by `,` with `null` rendered empty), `"[object Object]"` for objects. -/
def jsStringOfJson : Json → String
  | Json.null => "null"
  | Json.bool b => if b then "true" else "false"
  | Json.num n => toString n
  | Json.str s => s
  | Json.arr elems => jsArrString elems
  | Json.obj _ => "[object Object]"

/-- Rendering of array elements for `Array.prototype.toString`: elements
joined by `,`, with a `null` element rendered as the empty string. -/
def jsArrString : List Json → String
  | [] => ""
  | [Json.null] => ""
  | [x] => jsStringOfJson x
  | Json.null :: rest => "," ++ jsArrString rest
  | x :: rest => jsStringOfJson x ++ "," ++ jsArrString rest
end

/-- JavaScript `ToPropertyKey` / template-literal coercion of a possibly
`undefined` value: `undefined` renders as `"undefined"`, everything else via
`String(v)`. -/
def jsToKeyString : Option Json → String
  | none => "undefined"
  | some j => jsStringOfJson j

/-- JavaScript falsiness of a JSON value (`NaN` does not arise: numbers are
modelled as integers). -/
def jsFalsy : Json → Bool
  | Json.null => true
  | Json.bool b => !b
  | Json.num n => n == 0
  | Json.str s => s == ""
  | Json.arr _ => false
  | Json.obj _ => false

/-- JavaScript `v || ""` for a possibly-absent value: any falsy (or absent)
value is replaced by the empty string, truthy values pass through. -/
def jsOrEmptyStr : Option Json → Json
  | none => Json.str ""
  | some j => if jsFalsy j then Json.str "" else j

/-- JavaScript property assignment `o[key] = v` on an object modelled as an
association list (at most one binding per key, as `JSON.parse` and this
function itself guarantee): an existing key keeps its position and gets the
new value, a new key is appended. -/
def setField {α : Type} : List (String × α) → String → α → List (String × α)
  | [], key, v => [(key, v)]
  | p :: rest, key, v =>
      if p.1 == key then (key, v) :: rest else p :: setField rest key v

/-- Loop body of `parseTableResults` (src/index.tsx): skip the element unless
`result.range` is truthy with `.length === 2` (a two-element array, or — a
JavaScript quirk kept by the embedding — a two-character string, whose
destructuring yields its characters); otherwise store
`{name: result.name || "", description: result.description || ""}` under the
key `` `${start}-${end}` ``.  A truthy non-array `range` whose `length`
property is the number 2 (only a plain object can arrange this) makes the
JavaScript destructuring throw; such inputs are outside the embedding, which
skips them. -/
def parseTableStep (parsed : List (String × Json)) (result : Json) :
    List (String × Json) :=
  match jsonGet result "range" with
  | some (Json.arr [s, e]) =>
      setField parsed (jsStringOfJson s ++ "-" ++ jsStringOfJson e)
        (Json.obj [("name", jsOrEmptyStr (jsonGet result "name")),
                   ("description", jsOrEmptyStr (jsonGet result "description"))])
  | some (Json.str s) =>
      match s.data with
      | [c1, c2] =>
          setField parsed (String.mk [c1] ++ "-" ++ String.mk [c2])
            (Json.obj [("name", jsOrEmptyStr (jsonGet result "name")),
                       ("description", jsOrEmptyStr (jsonGet result "description"))])
      | _ => parsed
  | _ => parsed

/-- Embedding of `parseTableResults` (src/index.tsx): fold `parseTableStep`
over the `results` array, starting from the empty mapping. -/
def parseTableResults (results : List Json) : List (String × Json) :=
  results.foldl parseTableStep []

/-- Specification-side range-table step, written from the spec's words:
"Produces a mapping from `{start}-{end}` string key to `{name, description}`
(defaulting absent name/description to empty string).  Elements lacking a
valid two-element range are skipped silently." -/
def parseTableSpecStep (parsed : List (String × Json)) (result : Json) :
    List (String × Json) :=
  match jsonGet result "range" with
  | some (Json.arr [s, e]) =>
      setField parsed (jsStringOfJson s ++ "-" ++ jsStringOfJson e)
        (Json.obj [("name", (jsonGet result "name").getD (Json.str "")),
                   ("description", (jsonGet result "description").getD (Json.str ""))])
  | _ => parsed

/-- Specification-side Range-Table Post-Processor, to be compared with
`parseTableResults`. -/
def parseTableSpec (results : List Json) : List (String × Json) :=
  results.foldl parseTableSpecStep []

/-- Replacement of every backslash by a forward slash —
`inputPath.replace(/\\/g, "/")`. -/
def normalizeSlashes (s : List Char) : List Char :=
  s.map (fun c => if c = '\\' then '/' else c)

/-- Removal of a trailing `/output/` or `/output` — the anchored replacement
`.replace(/\/output\/?$/, "")` (the optional trailing slash is matched
greedily). -/
def stripOutputSuffix (s : List Char) : List Char :=
  if "/output/".data.isSuffixOf s then s.take (s.length - 8)
  else if "/output".data.isSuffixOf s then s.take (s.length - 7)
  else s

/-- Removal of a single trailing slash — `.replace(/\/$/, "")`. -/
def stripTrailingSlash (s : List Char) : List Char :=
  if "/".data.isSuffixOf s then s.take (s.length - 1)
  else s

/-- Splitting a path on `/` and dropping empty segments —
`cleanPath.split("/").filter(Boolean)`. -/
def pathParts (s : List Char) : List String :=
  ((splitOnChar '/' s).map String.mk).filter (fun p => p ≠ "")

/-- JavaScript `parts.slice(-2)`: the last two elements (all of them when the
list is shorter). -/
def lastTwo {α : Type} (l : List α) : List α :=
  l.drop (l.length - 2)

/-- Embedding of `getOutputFilename` (src/index.tsx). -/
def getOutputFilename (inputPath : String) : String :=
  let normalizedPath := normalizeSlashes inputPath.data
  let cleanPath := stripTrailingSlash (stripOutputSuffix normalizedPath)
  let parts := pathParts cleanPath
  let relevantParts := lastTwo parts
  String.intercalate "." relevantParts ++ ".json"

/-- Embedding of `getPackName` (src/index.tsx).  Note: unlike
`getOutputFilename`, it does not strip a `/output` suffix. -/
def getPackName (inputPath : String) : String :=
  let normalizedPath := normalizeSlashes inputPath.data
  let cleanPath := stripTrailingSlash normalizedPath
  let parts := pathParts cleanPath
  if parts.length ≥ 2 then (parts[parts.length - 2]?).getD "unknown"
  else (parts[parts.length - 1]?).getD "unknown"

/-- Retention test of the mapped-field loop in `compile`:
`value !== undefined && value !== null && value !== ""` — `undefined` is
excluded at the `Option` level, this predicate handles the two strict
comparisons (in particular `0` and `false` are kept). -/
def keepJson : Json → Bool
  | Json.null => false
  | Json.str "" => false
  | _ => true

/-- One element of `entriesArray` in `compile`: the computed key, the record
name used by the sort comparator, and the reduced data object.  The source
annotates `content.name as string` / `content._id as string`; the embedding
applies the JavaScript string coercion `jsToKeyString`, which is the identity
on the string-valued fields the data model guarantees. -/
structure CompiledEntry where
  key : String
  name : String
  data : List (String × Json)
  deriving Repr

/-- Per-record body of the `for await` loop in `compile` (src/index.tsx):
resolve every mapped source path, keep non-empty values, then overwrite
`entry.results` with the parsed range table whenever `content.results` is an
array. -/
def compileEntry (typeMapping : List (String × String)) (useIdAsKey : Bool)
    (content : Json) : CompiledEntry :=
  let entryName := jsonGet content "name"
  let entryId := jsonGet content "_id"
  let entryKey := if useIdAsKey then entryId else entryName
  let entry0 := typeMapping.foldl (fun entry m =>
      match getNestedValue (some content) m.2 with
      | some v => if keepJson v then setField entry m.1 v else entry
      | none => entry) []
  let entry1 :=
    match jsonGet content "results" with
    | some (Json.arr rs) => setField entry0 "results" (Json.obj (parseTableResults rs))
    | _ => entry0
  { key := jsToKeyString entryKey, name := jsToKeyString entryName, data := entry1 }

/-- Insertion of an element into a sorted list, before the first element it
compares `le` to. -/
def orderedInsertBy {α : Type} (le : α → α → Bool) (a : α) : List α → List α
  | [] => [a]
  | b :: l => if le a b then a :: b :: l else b :: orderedInsertBy le a l

/-- Stable insertion sort.  `Array.prototype.sort` is guaranteed stable
(ES2019) and `localeCompare` is a consistent comparator, so any stable sort
with respect to the comparator's total preorder — in particular this one —
computes the same list. -/
def insertionSortBy {α : Type} (le : α → α → Bool) : List α → List α
  | [] => []
  | a :: l => orderedInsertBy le a (insertionSortBy le l)

/-- Result value of `compile`: `label`, `mapping` and `entries` are the three
fields of the serialized output document, `count`/`filename` the returned
summary, and `outPath` the path handed to `Bun.write`
(`"output/" ++ filename`; the `output` directory is created first when
absent — a file-system effect outside the embedding). -/
structure CompileResult where
  label : String
  mapping : List (String × String)
  entries : List (String × List (String × Json))
  count : Nat
  filename : String
  outPath : String
  deriving Repr

/-- Record-reading loop of `compile`: one `CompiledEntry` per record file,
in discovery order; the first file whose JSON parse throws aborts the loop
and its error propagates unmodified. -/
def compileEntries (g : Json → CompiledEntry) :
    List (Except String Json) → Except String (List CompiledEntry)
  | [] => Except.ok []
  | Except.error e :: _ => Except.error e
  | Except.ok j :: rest =>
      match compileEntries g rest with
      | Except.error e => Except.error e
      | Except.ok l => Except.ok (g j :: l)

/-- Embedding of `compile` (src/index.tsx).  `le` abstracts the
locale-dependent comparison `a.name.localeCompare(b.name) <= 0`; `files` are
the record files in glob-discovery order, each either the parsed JSON or the
parse error its read throws.  The missing-mapping check precedes any use of
`files`; a parse error aborts the remaining reads and propagates. -/
def compile (input : String) (le : String → String → Bool)
    (fieldMappings : List (String × List (String × String)))
    (compendiumType : String) (sortAlphabetically useIdAsKey : Bool)
    (files : List (Except String Json)) : Except String CompileResult :=
  match jsLookup fieldMappings compendiumType with
  | none => Except.error ("No mapping found for type: " ++ compendiumType)
  | some typeMapping =>
      match compileEntries (compileEntry typeMapping useIdAsKey) files with
      | Except.error e => Except.error e
      | Except.ok entriesArray =>
          let sortedArray :=
            if sortAlphabetically then
              insertionSortBy (fun a b => le a.name b.name) entriesArray
            else entriesArray
          let entries := sortedArray.foldl (fun m e => setField m e.key e.data) []
          let outputFilename := getOutputFilename input
          Except.ok {
            label := getPackName input ++ " " ++ compendiumType,
            mapping := typeMapping,
            entries := entries,
            count := entriesArray.length,
            filename := outputFilename,
            outPath := "output/" ++ outputFilename }

/-- Insertion sequence of the final `entries` object in `compile`: the
per-record entries in discovery order, sorted by the name comparator when the
sort flag is set.  `compile` builds `entries` by executing
`entries[e.key] = e.data` over exactly this sequence. -/
def compileInsertionSeq (le : String → String → Bool)
    (typeMapping : List (String × String)) (sortAlphabetically useIdAsKey : Bool)
    (records : List Json) : List CompiledEntry :=
  let entriesArray := records.map (compileEntry typeMapping useIdAsKey)
  if sortAlphabetically then insertionSortBy (fun a b => le a.name b.name) entriesArray
  else entriesArray

/-- Specification-side pack name, written from the claim's words: the
second-to-last non-empty segment when there are at least two, the sole
segment when there is exactly one, `"unknown"` when there are none.  To be
compared with `getPackName`. -/
def packNameSpec : List String → String
  | [] => "unknown"
  | [only] => only
  | [secondLast, _] => secondLast
  | _ :: rest => packNameSpec rest

/-- Well-shaped `range` field for the range-table theorems: absent, `null`,
or an array — the shapes the spec's data model produces for roll-table rows. -/
def rangeShaped : Option Json → Bool
  | none => true
  | some Json.null => true
  | some (Json.arr _) => true
  | _ => false

/-- Well-shaped optional text field: absent or a string. -/
def strShaped : Option Json → Bool
  | none => true
  | some (Json.str _) => true
  | _ => false

/-- Test for "the value is a JSON array" — `Array.isArray`. -/
def isArrJson : Option Json → Bool
  | some (Json.arr _) => true
  | _ => false

/-- Code-point comparison of character lists: a concrete total preorder used
to instantiate the abstract locale comparison in closed statements. -/
def charListLe : List Char → List Char → Bool
  | [], _ => true
  | _ :: _, [] => false
  | a :: as, b :: bs =>
      if a.toNat < b.toNat then true
      else if b.toNat < a.toNat then false
      else charListLe as bs

/-- Code-point string comparison — a concrete stand-in for the locale-aware
`a.localeCompare(b) <= 0`. -/
def strLe (a b : String) : Bool := charListLe a.data b.data

theorem descendPath_none (keys : List String) : descendPath none keys = none := by
  cases keys <;> rfl

theorem foldl_bind_eq_descendPath (keys : List String) (current : Option Json) :
    keys.foldl (fun current key => current.bind (fun j => jsonGet j key)) current =
      descendPath current keys := by
  induction keys generalizing current with
  | nil => cases current <;> rfl
  | cons k ks ih =>
      rw [List.foldl_cons, ih]
      cases current with
      | none => simp [descendPath, descendPath_none, Option.bind]
      | some j => rfl

/-- C1: the Field Resolver `getNestedValue` splits the path on '.' and
descends key by key; if every segment is present the exact nested value is
returned, and a missing intermediate short-circuits to absent (`none`) —
`getNestedValue` is a total function, so no error can be raised.  Stated as a
refinement: the reduce-based source code equals the spec-side recursive
descent `descendPath` on the split path, for every record and path. -/
theorem getNestedValue_eq_descendPath (obj : Json) (path : String) :
    getNestedValue (some obj) path = descendPath (some obj) (jsSplit path '.') := by
  unfold getNestedValue
  exact foldl_bind_eq_descendPath (jsSplit path '.') (some obj)

theorem jsLookup_setField_self {α : Type} (l : List (String × α)) (k : String) (v : α) :
    jsLookup (setField l k v) k = some v := by
  induction l with
  | nil => simp [setField, jsLookup]
  | cons p rest ih =>
      by_cases h : p.1 == k
      · simp [setField, h, jsLookup]
      · simp only [setField, h, if_false, Bool.false_eq_true]
        simpa [jsLookup, List.find?, h] using ih

theorem jsLookup_setField_ne {α : Type} (l : List (String × α)) (k k' : String) (v : α)
    (h : k' ≠ k) :
    jsLookup (setField l k v) k' = jsLookup l k' := by
  induction l with
  | nil => simp [setField, jsLookup, List.find?, show (k == k') = false by
      simpa using fun hc => h hc.symm]
  | cons p rest ih =>
      by_cases hp : p.1 == k
      · have hp' : p.1 = k := by simpa using hp
        have : (k == k') = false := by simpa using fun hc => h hc.symm
        simp [setField, hp, jsLookup, List.find?, this, hp' ▸ this]
      · simp only [setField, hp, if_false, Bool.false_eq_true]
        by_cases hq : p.1 == k'
        · simp [jsLookup, List.find?, hq]
        · simpa [jsLookup, List.find?, hq] using ih

theorem compileEntries_map_ok (g : Json → CompiledEntry) (records : List Json) :
    compileEntries g (records.map Except.ok) = Except.ok (records.map g) := by
  induction records with
  | nil => rfl
  | cons r rs ih => simp [compileEntries, ih]

theorem compileEntries_error (g : Json → CompiledEntry) (records : List Json) (e : String)
    (post : List (Except String Json)) :
    compileEntries g (records.map Except.ok ++ Except.error e :: post) = Except.error e := by
  induction records with
  | nil => rfl
  | cons r rs ih => simp [compileEntries, ih]

theorem compile_ok (input : String) (le : String → String → Bool)
    (fm : List (String × List (String × String))) (t : String) (s u : Bool)
    (records : List Json) (m : List (String × String))
    (hm : jsLookup fm t = some m) :
    compile input le fm t s u (records.map Except.ok) =
      Except.ok {
        label := getPackName input ++ " " ++ t,
        mapping := m,
        entries := (compileInsertionSeq le m s u records).foldl
          (fun acc e => setField acc e.key e.data) [],
        count := records.length,
        filename := getOutputFilename input,
        outPath := "output/" ++ getOutputFilename input } := by
  simp only [compile, hm, compileEntries_map_ok, compileInsertionSeq, List.length_map]

/-- C6: whenever the selected compendium type has no entry in the
field-mappings object, `compile` fails with exactly
`"No mapping found for type: <type>"`, and it does so for every possible
record-file list — in particular the result does not depend on any record
file, which is the observable content of "aborts before reading any record
file" in the embedding. -/
theorem compile_missing_mapping (input : String) (le : String → String → Bool)
    (fm : List (String × List (String × String))) (t : String) (s u : Bool)
    (files : List (Except String Json))
    (h : jsLookup fm t = none) :
    compile input le fm t s u files =
      Except.error ("No mapping found for type: " ++ t) := by
  simp only [compile, h]

theorem compile_missing_mapping_witness :
    jsLookup ([("Actors", [("name", "name")])] :
        List (String × List (String × String))) "Items" = none ∧
    compile "packs/mod/actors" strLe [("Actors", [("name", "name")])] "Items"
        false false [Except.ok (Json.obj [("name", Json.str "X")])] =
      Except.error "No mapping found for type: Items" :=
  ⟨rfl, compile_missing_mapping "packs/mod/actors" strLe _ "Items" false false _ rfl⟩

/-- C8: a record file whose JSON parse fails makes `compile` return exactly
that parse error — unmodified, with no output document produced (the result
is an error, not a `CompileResult`), regardless of where the failing file
sits among the discovered files. -/
theorem compile_parse_error_propagates (input : String) (le : String → String → Bool)
    (fm : List (String × List (String × String))) (t : String) (s u : Bool)
    (records : List Json) (e : String) (post : List (Except String Json))
    (m : List (String × String))
    (hm : jsLookup fm t = some m) :
    compile input le fm t s u (records.map Except.ok ++ Except.error e :: post) =
      Except.error e := by
  simp only [compile, hm, compileEntries_error]

theorem compile_parse_error_propagates_witness :
    jsLookup ([("T", [("name", "name")])] : List (String × List (String × String))) "T" =
      some [("name", "name")] ∧
    compile "packs/mod/actors" strLe [("T", [("name", "name")])] "T" false false
        [Except.ok (Json.obj [("name", Json.str "X")]),
         Except.error "Unexpected end of JSON input",
         Except.ok (Json.obj [("name", Json.str "Y")])] =
      Except.error "Unexpected end of JSON input" :=
  ⟨rfl, compile_parse_error_propagates "packs/mod/actors" strLe _ "T" false false
    [Json.obj [("name", Json.str "X")]] "Unexpected end of JSON input"
    [Except.ok (Json.obj [("name", Json.str "Y")])] _ rfl⟩

theorem mappedFold_lookup_notmem (content : Json) (m : List (String × String))
    (acc : List (String × Json)) (k : String) (hk : k ∉ m.map Prod.fst) :
    jsLookup (m.foldl (fun entry q =>
      match getNestedValue (some content) q.2 with
      | some v => if keepJson v then setField entry q.1 v else entry
      | none => entry) acc) k = jsLookup acc k := by
  induction m generalizing acc with
  | nil => rfl
  | cons q rest ih =>
      simp only [List.map_cons, List.mem_cons, not_or] at hk
      rw [List.foldl_cons, ih _ hk.2]
      cases hv : getNestedValue (some content) q.2 with
      | none => rfl
      | some v =>
          by_cases hkeep : keepJson v
          · simp only [hkeep, if_true]
            exact jsLookup_setField_ne acc q.1 k v hk.1
          · simp [hkeep]

theorem mappedFold_lookup_mem (content : Json) (m : List (String × String))
    (acc : List (String × Json)) (k p : String)
    (hnd : (m.map Prod.fst).Nodup) (hmem : (k, p) ∈ m) (hacc : jsLookup acc k = none) :
    jsLookup (m.foldl (fun entry q =>
      match getNestedValue (some content) q.2 with
      | some v => if keepJson v then setField entry q.1 v else entry
      | none => entry) acc) k =
      (getNestedValue (some content) p).bind (fun v => if keepJson v then some v else none) := by
  induction m generalizing acc with
  | nil => exact absurd hmem (List.not_mem_nil _)
  | cons q rest ih =>
      simp only [List.map_cons, List.nodup_cons] at hnd
      rcases List.mem_cons.mp hmem with heq | hrest
      · -- head: (k, p) = q; k not among rest keys
        have hk : k ∉ rest.map Prod.fst := by
          rw [← heq] at hnd; exact hnd.1
        rw [List.foldl_cons, mappedFold_lookup_notmem content rest _ k hk]
        rw [← heq]
        cases hv : getNestedValue (some content) p with
        | none => simpa [hv] using hacc
        | some v =>
            by_cases hkeep : keepJson v
            · simp only [hv, hkeep, if_true, Option.bind]
              exact jsLookup_setField_self acc k v
            · simpa [hv, hkeep] using hacc
      · -- in the tail: k differs from q.1 by nodup
        have hkq : k ≠ q.1 := by
          intro hkq
          exact hnd.1 (hkq ▸ (List.mem_map.mpr ⟨(k, p), hrest, rfl⟩))
        rw [List.foldl_cons]
        have hacc2 : jsLookup ((fun entry q =>
            match getNestedValue (some content) q.2 with
            | some v => if keepJson v then setField entry q.1 v else entry
            | none => entry) acc q) k = none := by
          cases hv : getNestedValue (some content) q.2 with
          | none => simpa [hv] using hacc
          | some v =>
              by_cases hkeep : keepJson v
              · simpa [hv, hkeep, jsLookup_setField_ne acc q.1 k v hkq] using hacc
              · simpa [hv, hkeep] using hacc
        exact ih _ hnd.2 hrest hacc2

/-- C2 (amended): for a mapped output field `(k, p)` of the type mapping
(whose keys are distinct, as `Object.entries` of a parsed JSON object
guarantees), the compiled entry's data contains `k` if and only if the
resolved source value is neither `undefined` nor `null` nor `""`, and then
holds exactly that value (so `0` and `false` are retained) — EXCEPT for the
output field named `"results"` on a record whose `results` is an array,
which the derived range-table assignment overwrites (see C9 and the
counterexample `compileEntry_omitted_field_reappears`). -/
theorem compileEntry_data_lookup (m : List (String × String)) (u : Bool) (content : Json)
    (k p : String) (hnd : (m.map Prod.fst).Nodup) (hmem : (k, p) ∈ m)
    (hnr : k ≠ "results" ∨ isArrJson (jsonGet content "results") = false) :
    jsLookup (compileEntry m u content).data k =
      (getNestedValue (some content) p).bind
        (fun v => if keepJson v then some v else none) := by
  unfold compileEntry
  simp only []
  cases hres : jsonGet content "results" with
  | none => exact mappedFold_lookup_mem content m [] k p hnd hmem rfl
  | some j =>
      cases j with
      | arr rs =>
          rcases hnr with hk | hfalse
          · simp only [hres]
            rw [jsLookup_setField_ne _ _ _ _ hk]
            exact mappedFold_lookup_mem content m [] k p hnd hmem rfl
          · rw [hres] at hfalse
            simp [isArrJson] at hfalse
      | null => simp only [hres]; exact mappedFold_lookup_mem content m [] k p hnd hmem rfl
      | bool b => simp only [hres]; exact mappedFold_lookup_mem content m [] k p hnd hmem rfl
      | num n => simp only [hres]; exact mappedFold_lookup_mem content m [] k p hnd hmem rfl
      | str s => simp only [hres]; exact mappedFold_lookup_mem content m [] k p hnd hmem rfl
      | obj fs => simp only [hres]; exact mappedFold_lookup_mem content m [] k p hnd hmem rfl

theorem compileEntry_data_lookup_witness :
    ((([("zero", "z"), ("flag", "f"), ("empty", "e")] :
        List (String × String)).map Prod.fst).Nodup) ∧
    (("zero", "z") ∈ ([("zero", "z"), ("flag", "f"), ("empty", "e")] :
        List (String × String))) ∧
    (("zero" : String) ≠ "results" ∨ isArrJson (jsonGet (Json.obj
        [("z", Json.num 0), ("f", Json.bool false), ("e", Json.str "")]) "results") = false) ∧
    jsLookup (compileEntry [("zero", "z"), ("flag", "f"), ("empty", "e")] false
        (Json.obj [("z", Json.num 0), ("f", Json.bool false), ("e", Json.str "")])).data
        "zero" =
      (getNestedValue (some (Json.obj
        [("z", Json.num 0), ("f", Json.bool false), ("e", Json.str "")])) "z").bind
        (fun v => if keepJson v then some v else none) :=
  ⟨by decide, by decide, Or.inl (by decide),
   compileEntry_data_lookup _ false _ "zero" "z" (by decide) (by decide)
     (Or.inl (by decide))⟩

/-- C2 counterexample: with type mapping `{results: "missing"}` and record
`{results: []}` the resolved source value is `undefined`, so the claim says
the field "results" is omitted from the entry's data; but the derived
range-table assignment puts `"results" := {}` there anyway. -/
theorem compileEntry_omitted_field_reappears :
    getNestedValue (some (Json.obj [("results", Json.arr [])])) "missing" = none ∧
    jsLookup (compileEntry [("results", "missing")] false
        (Json.obj [("results", Json.arr [])])).data "results" = some (Json.obj []) :=
  ⟨rfl, rfl⟩

/-- C9: whenever the record's `results` field is an array, the compiled
entry's data maps `"results"` to the Range-Table Post-Processor's output —
for EVERY type mapping `m` (including the empty one, so the derived field is
exempt from the omission rule) and every key flag; the final assignment
overwrites any value a mapped output field named `"results"` produced. -/
theorem compileEntry_results_derived (m : List (String × String)) (u : Bool)
    (content : Json) (rs : List Json)
    (h : jsonGet content "results" = some (Json.arr rs)) :
    jsLookup (compileEntry m u content).data "results" =
      some (Json.obj (parseTableResults rs)) := by
  unfold compileEntry
  simp only [h]
  exact jsLookup_setField_self _ _ _

theorem compileEntry_results_derived_witness :
    jsonGet (Json.obj [("name", Json.str "x"), ("results", Json.arr [])]) "results" =
      some (Json.arr []) ∧
    jsLookup (compileEntry [("results", "name")] false
        (Json.obj [("name", Json.str "x"), ("results", Json.arr [])])).data "results" =
      some (Json.obj (parseTableResults [])) :=
  ⟨rfl, compileEntry_results_derived [("results", "name")] false _ [] rfl⟩

theorem jsOrEmptyStr_of_strShaped (v : Option Json) (h : strShaped v = true) :
    jsOrEmptyStr v = v.getD (Json.str "") := by
  cases v with
  | none => rfl
  | some j =>
      cases j with
      | str s =>
          simp only [jsOrEmptyStr, jsFalsy, Option.getD]
          by_cases hs : s == ""
          · have : s = "" := by simpa using hs
            simp [this]
          · simp [hs]
      | null => simp [strShaped] at h
      | bool b => simp [strShaped] at h
      | num n => simp [strShaped] at h
      | arr l => simp [strShaped] at h
      | obj fs => simp [strShaped] at h

theorem parseTableStep_eq_spec (parsed : List (String × Json)) (r : Json)
    (hr : rangeShaped (jsonGet r "range") = true)
    (hn : strShaped (jsonGet r "name") = true)
    (hd : strShaped (jsonGet r "description") = true) :
    parseTableStep parsed r = parseTableSpecStep parsed r := by
  unfold parseTableStep parseTableSpecStep
  cases hg : jsonGet r "range" with
  | none => rfl
  | some j =>
      cases j with
      | null => rfl
      | arr l =>
          match l with
          | [] => rfl
          | [s] => rfl
          | [s, e] =>
              rw [jsOrEmptyStr_of_strShaped _ hn, jsOrEmptyStr_of_strShaped _ hd]
          | s :: e :: x :: rest => rfl
      | bool b => simp [hg, rangeShaped] at hr
      | num n => simp [hg, rangeShaped] at hr
      | str s => simp [hg, rangeShaped] at hr
      | obj fs => simp [hg, rangeShaped] at hr

theorem parseTable_foldl_eq_spec (results : List Json)
    (h : ∀ r ∈ results, rangeShaped (jsonGet r "range") = true ∧
        strShaped (jsonGet r "name") = true ∧ strShaped (jsonGet r "description") = true) :
    ∀ acc, results.foldl parseTableStep acc = results.foldl parseTableSpecStep acc := by
  induction results with
  | nil => intro acc; rfl
  | cons r rs ih =>
      intro acc
      have hr := h r (List.mem_cons_self r rs)
      rw [List.foldl_cons, List.foldl_cons,
        parseTableStep_eq_spec acc r hr.1 hr.2.1 hr.2.2]
      exact ih (fun x hx => h x (List.mem_cons_of_mem r hx)) _

/-- C4: on every results array whose elements carry a well-shaped `range`
(absent, null or an array) and well-shaped optional `name`/`description`
(absent or a string), `parseTableResults` computes exactly the spec-side
mapping: key `"{start}-{end}"` with `{name, description}` (absent fields
defaulting to the empty string) for each element with a two-element range,
every other element skipped silently; moreover on the claim's concrete input
`[{range:[1,10],name:"A",description:"d"}, {range:[11],name:"B"}]` the output
is exactly `{"1-10": {name:"A", description:"d"}}`. -/
theorem parseTableResults_correct (results : List Json)
    (h : ∀ r ∈ results, rangeShaped (jsonGet r "range") = true ∧
        strShaped (jsonGet r "name") = true ∧ strShaped (jsonGet r "description") = true) :
    parseTableResults results = parseTableSpec results ∧
    parseTableResults
        [Json.obj [("range", Json.arr [Json.num 1, Json.num 10]),
                   ("name", Json.str "A"), ("description", Json.str "d")],
         Json.obj [("range", Json.arr [Json.num 11]), ("name", Json.str "B")]] =
      [("1-10", Json.obj [("name", Json.str "A"), ("description", Json.str "d")])] :=
  ⟨parseTable_foldl_eq_spec results h [], rfl⟩

theorem parseTableResults_correct_witness :
    (∀ r ∈ [Json.obj [("range", Json.arr [Json.num 1, Json.num 10]),
                      ("name", Json.str "A"), ("description", Json.str "d")],
            Json.obj [("range", Json.arr [Json.num 11]), ("name", Json.str "B")]],
        rangeShaped (jsonGet r "range") = true ∧
        strShaped (jsonGet r "name") = true ∧ strShaped (jsonGet r "description") = true) ∧
    parseTableResults
        [Json.obj [("range", Json.arr [Json.num 1, Json.num 10]),
                   ("name", Json.str "A"), ("description", Json.str "d")],
         Json.obj [("range", Json.arr [Json.num 11]), ("name", Json.str "B")]] =
      parseTableSpec
        [Json.obj [("range", Json.arr [Json.num 1, Json.num 10]),
                   ("name", Json.str "A"), ("description", Json.str "d")],
         Json.obj [("range", Json.arr [Json.num 11]), ("name", Json.str "B")]] :=
  ⟨by decide, (parseTableResults_correct _ (by decide)).1⟩

theorem packNameSpec_eq (l : List String) :
    packNameSpec l =
      if l.length ≥ 2 then (l[l.length - 2]?).getD "unknown"
      else (l[l.length - 1]?).getD "unknown" := by
  induction l with
  | nil => rfl
  | cons a rest ih =>
      cases rest with
      | nil => rfl
      | cons b rest2 =>
          cases rest2 with
          | nil => rfl
          | cons c rest3 =>
              have h1 : packNameSpec (a :: b :: c :: rest3) = packNameSpec (b :: c :: rest3) := rfl
              rw [h1, ih]
              have hge : (b :: c :: rest3).length ≥ 2 := by simp
              have hge2 : (a :: b :: c :: rest3).length ≥ 2 := by
                simp [List.length_cons]
              rw [if_pos hge, if_pos hge2]
              have e1 : (b :: c :: rest3).length - 2 = rest3.length := by
                simp [List.length_cons]
              have e2 : (a :: b :: c :: rest3).length - 2 = rest3.length + 1 := by
                simp [List.length_cons]
              rw [e1, e2, List.getElem?_cons_succ]

theorem getPackName_eq_spec (input : String) :
    getPackName input =
      packNameSpec (pathParts (stripTrailingSlash (normalizeSlashes input.data))) := by
  rw [packNameSpec_eq]
  rfl

/-- C10: every successful `compile` run labels the output document with the
pack name, a space and the compendium type, where the pack name is computed
from the non-empty segments of the input path (after slash normalization and
trailing-slash stripping): the second-to-last segment when there are at
least two, the sole segment when there is exactly one, `"unknown"` when
there are none — stated via the spec-side `packNameSpec`. -/
theorem compile_label_packname (input : String) (le : String → String → Bool)
    (fm : List (String × List (String × String))) (t : String) (s u : Bool)
    (records : List Json) (m : List (String × String))
    (hm : jsLookup fm t = some m) :
    ∃ res, compile input le fm t s u (records.map Except.ok) = Except.ok res ∧
      res.label = getPackName input ++ " " ++ t ∧
      getPackName input =
        packNameSpec (pathParts (stripTrailingSlash (normalizeSlashes input.data))) :=
  ⟨_, compile_ok input le fm t s u records m hm, rfl, getPackName_eq_spec input⟩

theorem compile_label_packname_witness :
    jsLookup ([("Items", [("name", "name")])] :
        List (String × List (String × String))) "Items" = some [("name", "name")] ∧
    (∃ res, compile "packs/my-module/actors" strLe [("Items", [("name", "name")])]
        "Items" false false
        [Except.ok (Json.obj [("_id", Json.str "abc"), ("name", Json.str "Sword")])] =
          Except.ok res ∧
      res.label = getPackName "packs/my-module/actors" ++ " " ++ "Items" ∧
      getPackName "packs/my-module/actors" =
        packNameSpec (pathParts (stripTrailingSlash
          (normalizeSlashes "packs/my-module/actors".data)))) :=
  ⟨rfl, by
    have h := compile_label_packname "packs/my-module/actors" strLe
      [("Items", [("name", "name")])] "Items" false false
      [Json.obj [("_id", Json.str "abc"), ("name", Json.str "Sword")]]
      [("name", "name")] rfl
    simpa using h⟩

/-- C7 counterexample: for the input folder `"packs/mod/output"` the claim's
rule (last two path segments joined with `.` and suffixed `.json`) yields
`"mod.output.json"`, but the code first strips the trailing `/output`
segment and produces `"packs.mod.json"`. -/
theorem getOutputFilename_strips_output_suffix :
    getOutputFilename "packs/mod/output" = "packs.mod.json" ∧
    String.intercalate "."
        (lastTwo (pathParts (normalizeSlashes "packs/mod/output".data))) ++ ".json" =
      "mod.output.json" ∧
    ("packs.mod.json" : String) ≠ "mod.output.json" :=
  ⟨rfl, rfl, by decide⟩

theorem getOutputFilename_no_suffix (input : String)
    (h1 : "/output/".data.isSuffixOf (normalizeSlashes input.data) = false)
    (h2 : "/output".data.isSuffixOf (normalizeSlashes input.data) = false)
    (h3 : "/".data.isSuffixOf (normalizeSlashes input.data) = false) :
    getOutputFilename input =
      String.intercalate "." (lastTwo (pathParts (normalizeSlashes input.data))) ++
        ".json" := by
  unfold getOutputFilename stripOutputSuffix stripTrailingSlash
  simp [h1, h2, h3]

/-- C7 (amended): every successful `compile` run writes the document to the
fixed `output` directory (created if absent — a file-system effect outside
the embedding) under `res.filename`; and for every input folder that does
not end in `/`, `/output` or `/output/` (after backslash normalization),
that filename is the last two non-empty path segments joined with `.` and
suffixed `.json`.  (For inputs ending in `/output`, the code strips that
suffix first — see the counterexample.) -/
theorem compile_output_location (input : String) (le : String → String → Bool)
    (fm : List (String × List (String × String))) (t : String) (s u : Bool)
    (records : List Json) (m : List (String × String))
    (hm : jsLookup fm t = some m)
    (h1 : "/output/".data.isSuffixOf (normalizeSlashes input.data) = false)
    (h2 : "/output".data.isSuffixOf (normalizeSlashes input.data) = false)
    (h3 : "/".data.isSuffixOf (normalizeSlashes input.data) = false) :
    ∃ res, compile input le fm t s u (records.map Except.ok) = Except.ok res ∧
      res.outPath = "output/" ++ res.filename ∧
      res.filename =
        String.intercalate "." (lastTwo (pathParts (normalizeSlashes input.data))) ++
          ".json" :=
  ⟨_, compile_ok input le fm t s u records m hm, rfl,
    getOutputFilename_no_suffix input h1 h2 h3⟩

theorem compile_output_location_witness :
    jsLookup ([("Items", [("name", "name")])] :
        List (String × List (String × String))) "Items" = some [("name", "name")] ∧
    "/output/".data.isSuffixOf (normalizeSlashes "packs/my-module/actors".data) = false ∧
    "/output".data.isSuffixOf (normalizeSlashes "packs/my-module/actors".data) = false ∧
    "/".data.isSuffixOf (normalizeSlashes "packs/my-module/actors".data) = false ∧
    (∃ res, compile "packs/my-module/actors" strLe [("Items", [("name", "name")])]
        "Items" false false ([] : List (Except String Json)) = Except.ok res ∧
      res.outPath = "output/" ++ res.filename ∧
      res.filename = String.intercalate "."
        (lastTwo (pathParts (normalizeSlashes "packs/my-module/actors".data))) ++ ".json") :=
  ⟨rfl, by decide, by decide, by decide, by
    have h := compile_output_location "packs/my-module/actors" strLe
      [("Items", [("name", "name")])] "Items" false false [] [("name", "name")]
      rfl (by decide) (by decide) (by decide)
    simpa using h⟩

theorem foldl_setField_lookup (arr : List CompiledEntry)
    (acc : List (String × List (String × Json))) (k : String) :
    jsLookup (arr.foldl (fun m e => setField m e.key e.data) acc) k =
      match (arr.filter (fun x => x.key == k)).getLast? with
      | some x => some x.data
      | none => jsLookup acc k := by
  induction arr generalizing acc with
  | nil => rfl
  | cons e rest ih =>
      rw [List.foldl_cons, ih]
      by_cases hk : e.key == k
      · have hk' : e.key = k := by simpa using hk
        simp only [List.filter_cons, hk, if_true]
        cases hrest : rest.filter (fun x => x.key == k) with
        | nil =>
            simp only [hrest, List.getLast?_singleton, List.getLast?_nil]
            rw [← hk', jsLookup_setField_self]
        | cons f fs =>
            simp only [hrest, List.getLast?_cons_cons]
            obtain ⟨x, hx⟩ := Option.isSome_iff_exists.mp
              (List.getLast?_isSome.mpr (by simp : (f :: fs) ≠ []))
            simp only [hx]
      · have hk2 : k ≠ e.key := fun h => absurd (by simp [h] : (e.key == k) = true) hk
        have hfilter : (e :: rest).filter (fun x => x.key == k) =
            rest.filter (fun x => x.key == k) := by
          simp [List.filter_cons, hk]
        rw [hfilter]
        cases hrest : (rest.filter (fun x => x.key == k)).getLast? with
        | some f => simp only [hrest]
        | none =>
            simp only [hrest]
            rw [jsLookup_setField_ne acc e.key k e.data hk2]

theorem compileEntry_key (m : List (String × String)) (u : Bool) (rec : Json) :
    (compileEntry m u rec).key =
      jsToKeyString (jsonGet rec (if u then "_id" else "name")) := by
  cases u <;> rfl

theorem getLast?_map_list {α β : Type} (g : α → β) (l : List α) :
    (l.map g).getLast? = l.getLast?.map g := by
  induction l with
  | nil => rfl
  | cons a rest ih =>
      cases rest with
      | nil => rfl
      | cons b bs => simpa [List.getLast?_cons_cons] using ih

/-- C3 (amended): with sorting disabled, `compile` keys each entry by the
record's `_id` when the ID flag is set and by its `name` otherwise
(`jsToKeyString` is the identity on the string values the data model
guarantees), and for a key occurring in several records the final map holds
exactly the data of the last-processed record with that key.  With sorting
enabled the winner is instead the last record with that key in the SORTED
insertion order, which need not be the last-processed one — see the
counterexample. -/
theorem compile_entries_keying (input : String) (le : String → String → Bool)
    (fm : List (String × List (String × String))) (t : String) (u : Bool)
    (records : List Json) (m : List (String × String)) (k : String)
    (hm : jsLookup fm t = some m) :
    ∃ res, compile input le fm t false u (records.map Except.ok) = Except.ok res ∧
      (∀ s : String, jsToKeyString (some (Json.str s)) = s) ∧
      jsLookup res.entries k =
        (match (records.filter (fun rec =>
            jsToKeyString (jsonGet rec (if u then "_id" else "name")) == k)).getLast? with
        | some rec => some (compileEntry m u rec).data
        | none => none) := by
  refine ⟨_, compile_ok input le fm t false u records m hm, fun s => rfl, ?_⟩
  show jsLookup ((compileInsertionSeq le m false u records).foldl
      (fun acc e => setField acc e.key e.data) []) k = _
  rw [foldl_setField_lookup]
  have hseq : compileInsertionSeq le m false u records =
      records.map (compileEntry m u) := rfl
  rw [hseq]
  have hpred : (records.map (compileEntry m u)).filter (fun x => x.key == k) =
      (records.filter (fun rec =>
        jsToKeyString (jsonGet rec (if u then "_id" else "name")) == k)).map
        (compileEntry m u) := by
    have hfun : ((fun x : CompiledEntry => x.key == k) ∘ compileEntry m u) =
        (fun rec => jsToKeyString (jsonGet rec (if u then "_id" else "name")) == k) := by
      funext rec
      simp [Function.comp, compileEntry_key]
    rw [List.filter_map, hfun]
  rw [hpred, getLast?_map_list]
  cases (records.filter (fun rec =>
      jsToKeyString (jsonGet rec (if u then "_id" else "name")) == k)).getLast? with
  | none => rfl
  | some rec => rfl

/-- C3 counterexample: sorting and ID keys enabled, two records share
`_id` "k" and arrive named "B" then "A"; the sort moves "A" before "B", so
the final map holds the data of the FIRST-processed record (`name` "B"),
not the last-processed one (`name` "A") as the claim states. -/
theorem compile_last_processed_counterexample :
    (compile "p/q" strLe [("T", [("name", "name")])] "T" true true
        [Except.ok (Json.obj [("_id", Json.str "k"), ("name", Json.str "B")]),
         Except.ok (Json.obj [("_id", Json.str "k"), ("name", Json.str "A")])]).map
        (fun r => r.entries) =
      Except.ok [("k", [("name", Json.str "B")])] ∧
    (compileEntry [("name", "name")] true
        (Json.obj [("_id", Json.str "k"), ("name", Json.str "A")])).data =
      [("name", Json.str "A")] ∧
    Json.str "B" ≠ Json.str "A" := by
  refine ⟨rfl, rfl, ?_⟩
  intro h
  injection h with h1
  exact absurd h1 (by decide)

theorem compile_entries_keying_witness :
    jsLookup ([("T", [("name", "name")])] :
        List (String × List (String × String))) "T" = some [("name", "name")] ∧
    (∃ res, compile "p/q" strLe [("T", [("name", "name")])] "T" false true
        [Except.ok (Json.obj [("_id", Json.str "k"), ("name", Json.str "B")]),
         Except.ok (Json.obj [("_id", Json.str "k"), ("name", Json.str "A")])] =
          Except.ok res ∧
      (∀ s : String, jsToKeyString (some (Json.str s)) = s) ∧
      jsLookup res.entries "k" =
        (match ([Json.obj [("_id", Json.str "k"), ("name", Json.str "B")],
                 Json.obj [("_id", Json.str "k"), ("name", Json.str "A")]].filter
            (fun rec => jsToKeyString (jsonGet rec (if true then "_id" else "name")) == "k")).getLast? with
        | some rec => some (compileEntry [("name", "name")] true rec).data
        | none => none)) := by
  refine ⟨rfl, ?_⟩
  have h := compile_entries_keying "p/q" strLe [("T", [("name", "name")])] "T" true
    [Json.obj [("_id", Json.str "k"), ("name", Json.str "B")],
     Json.obj [("_id", Json.str "k"), ("name", Json.str "A")]]
    [("name", "name")] "k" rfl
  simpa using h

theorem perm_orderedInsertBy {α : Type} (le : α → α → Bool) (a : α) (l : List α) :
    (orderedInsertBy le a l).Perm (a :: l) := by
  induction l with
  | nil => exact List.Perm.refl _
  | cons b bl ih =>
      unfold orderedInsertBy
      by_cases h : le a b
      · rw [if_pos h]
      · rw [if_neg h]
        exact (ih.cons b).trans (List.Perm.swap a b bl)

theorem perm_insertionSortBy {α : Type} (le : α → α → Bool) (l : List α) :
    (insertionSortBy le l).Perm l := by
  induction l with
  | nil => exact List.Perm.refl _
  | cons a l ih =>
      exact (perm_orderedInsertBy le a (insertionSortBy le l)).trans (ih.cons a)

theorem pairwise_orderedInsertBy {α : Type} (le : α → α → Bool)
    (htot : ∀ a b, le a b = true ∨ le b a = true)
    (htrans : ∀ a b c, le a b = true → le b c = true → le a c = true)
    (a : α) (l : List α) (hl : l.Pairwise (fun x y => le x y = true)) :
    (orderedInsertBy le a l).Pairwise (fun x y => le x y = true) := by
  induction l with
  | nil => simp [orderedInsertBy]
  | cons b bl ih =>
      rcases List.pairwise_cons.mp hl with ⟨hb, hbl⟩
      unfold orderedInsertBy
      by_cases h : le a b
      · rw [if_pos h]
        refine List.pairwise_cons.mpr ⟨?_, hl⟩
        intro x hx
        rcases List.mem_cons.mp hx with rfl | hx2
        · exact h
        · exact htrans a b x h (hb x hx2)
      · rw [if_neg h]
        refine List.pairwise_cons.mpr ⟨?_, ih hbl⟩
        intro x hx
        have hx3 := (perm_orderedInsertBy le a bl).mem_iff.mp hx
        rcases List.mem_cons.mp hx3 with rfl | hx4
        · rcases htot x b with h1 | h2
          · exact absurd h1 h
          · exact h2
        · exact hb x hx4

theorem pairwise_insertionSortBy {α : Type} (le : α → α → Bool)
    (htot : ∀ a b, le a b = true ∨ le b a = true)
    (htrans : ∀ a b c, le a b = true → le b c = true → le a c = true)
    (l : List α) :
    (insertionSortBy le l).Pairwise (fun x y => le x y = true) := by
  induction l with
  | nil => simp [insertionSortBy]
  | cons a l ih =>
      exact pairwise_orderedInsertBy le htot htrans a (insertionSortBy le l) ih

theorem charListLe_cons_iff (x y : Char) (xs ys : List Char) :
    charListLe (x :: xs) (y :: ys) = true ↔
      x.toNat < y.toNat ∨ (x.toNat = y.toNat ∧ charListLe xs ys = true) := by
  simp only [charListLe]
  by_cases h1 : x.toNat < y.toNat
  · simp [h1]
  · by_cases h2 : y.toNat < x.toNat
    · rw [if_neg h1, if_pos h2]
      simp only [Bool.false_eq_true, false_iff]
      rintro (h | ⟨he, _⟩) <;> omega
    · have he : x.toNat = y.toNat := by omega
      simp [h1, h2, he]

theorem charListLe_total (a : List Char) : ∀ b, charListLe a b = true ∨ charListLe b a = true := by
  induction a with
  | nil => intro b; exact Or.inl rfl
  | cons x xs ih =>
      intro b
      cases b with
      | nil => exact Or.inr rfl
      | cons y ys =>
          rcases Nat.lt_trichotomy x.toNat y.toNat with h | h | h
          · exact Or.inl ((charListLe_cons_iff x y xs ys).mpr (Or.inl h))
          · rcases ih ys with h2 | h2
            · exact Or.inl ((charListLe_cons_iff x y xs ys).mpr (Or.inr ⟨h, h2⟩))
            · exact Or.inr ((charListLe_cons_iff y x ys xs).mpr (Or.inr ⟨h.symm, h2⟩))
          · exact Or.inr ((charListLe_cons_iff y x ys xs).mpr (Or.inl h))

theorem charListLe_trans (a : List Char) :
    ∀ b c, charListLe a b = true → charListLe b c = true → charListLe a c = true := by
  induction a with
  | nil => intro b c _ _; rfl
  | cons x xs ih =>
      intro b c h1 h2
      cases b with
      | nil => simp [charListLe] at h1
      | cons y ys =>
          cases c with
          | nil => simp [charListLe] at h2
          | cons z zs =>
              rw [charListLe_cons_iff] at h1 h2 ⊢
              rcases h1 with h1 | ⟨h1e, h1r⟩
              · rcases h2 with h2 | ⟨h2e, h2r⟩
                · exact Or.inl (Nat.lt_trans h1 h2)
                · exact Or.inl (h2e ▸ h1)
              · rcases h2 with h2 | ⟨h2e, h2r⟩
                · exact Or.inl (h1e ▸ h2)
                · exact Or.inr ⟨h1e.trans h2e, ih ys zs h1r h2r⟩

theorem strLe_total (a b : String) : strLe a b = true ∨ strLe b a = true :=
  charListLe_total a.data b.data

theorem strLe_trans (a b c : String) :
    strLe a b = true → strLe b c = true → strLe a c = true :=
  charListLe_trans a.data b.data c.data

/-- C5: the entries map is built by inserting the compiled entries of the
`compileInsertionSeq` in order; when the sort flag is set that sequence is
pairwise ascending in the records' names under the comparator `le`
(abstracting `a.name.localeCompare(b.name) <= 0`, assumed total and
transitive) and is a permutation of the per-record entries; when the flag is
off it is exactly the discovery-order sequence. -/
theorem compile_sort_invariant (input : String) (le : String → String → Bool)
    (fm : List (String × List (String × String))) (t : String) (u : Bool)
    (records : List Json) (m : List (String × String))
    (hm : jsLookup fm t = some m)
    (htot : ∀ a b : String, le a b = true ∨ le b a = true)
    (htrans : ∀ a b c : String, le a b = true → le b c = true → le a c = true) :
    (∀ b : Bool, ∃ res,
        compile input le fm t b u (records.map Except.ok) = Except.ok res ∧
        res.entries = (compileInsertionSeq le m b u records).foldl
          (fun acc e => setField acc e.key e.data) []) ∧
    (compileInsertionSeq le m true u records).Pairwise
      (fun a b => le a.name b.name = true) ∧
    (compileInsertionSeq le m true u records).Perm
      (records.map (compileEntry m u)) ∧
    compileInsertionSeq le m false u records = records.map (compileEntry m u) := by
  refine ⟨fun b => ⟨_, compile_ok input le fm t b u records m hm, rfl⟩, ?_, ?_, rfl⟩
  · have hseq : compileInsertionSeq le m true u records =
        insertionSortBy (fun a b => le a.name b.name)
          (records.map (compileEntry m u)) := rfl
    rw [hseq]
    exact pairwise_insertionSortBy _
      (fun (a b : CompiledEntry) => htot a.name b.name)
      (fun (a b c : CompiledEntry) => htrans a.name b.name c.name) _
  · exact perm_insertionSortBy _ _

theorem compile_sort_invariant_witness :
    jsLookup ([("T", [("name", "name")])] :
        List (String × List (String × String))) "T" = some [("name", "name")] ∧
    (∀ a b : String, strLe a b = true ∨ strLe b a = true) ∧
    (∀ a b c : String, strLe a b = true → strLe b c = true → strLe a c = true) ∧
    ((∀ b : Bool, ∃ res,
        compile "p/q" strLe [("T", [("name", "name")])] "T" b false
          ([Json.obj [("name", Json.str "b")],
            Json.obj [("name", Json.str "a")]].map Except.ok) = Except.ok res ∧
        res.entries = (compileInsertionSeq strLe [("name", "name")] b false
            [Json.obj [("name", Json.str "b")],
             Json.obj [("name", Json.str "a")]]).foldl
          (fun acc e => setField acc e.key e.data) []) ∧
    (compileInsertionSeq strLe [("name", "name")] true false
        [Json.obj [("name", Json.str "b")],
         Json.obj [("name", Json.str "a")]]).Pairwise
      (fun a b => strLe a.name b.name = true) ∧
    (compileInsertionSeq strLe [("name", "name")] true false
        [Json.obj [("name", Json.str "b")],
         Json.obj [("name", Json.str "a")]]).Perm
      ([Json.obj [("name", Json.str "b")],
        Json.obj [("name", Json.str "a")]].map
        (compileEntry [("name", "name")] false)) ∧
    compileInsertionSeq strLe [("name", "name")] false false
        [Json.obj [("name", Json.str "b")],
         Json.obj [("name", Json.str "a")]] =
      [Json.obj [("name", Json.str "b")],
       Json.obj [("name", Json.str "a")]].map (compileEntry [("name", "name")] false)) :=
  ⟨rfl, strLe_total, strLe_trans,
   compile_sort_invariant "p/q" strLe [("T", [("name", "name")])] "T" false
     [Json.obj [("name", Json.str "b")], Json.obj [("name", Json.str "a")]]
     [("name", "name")] rfl strLe_total strLe_trans⟩
